import Mathlib

/-!
Verification of the route deviation-scoring and ranking engine of
pss-backend (package `internal/route`: `calculations.go` together with the
`Search` function of `route.go`).

Modelling conventions of this shallow embedding:

* Go `float64` values are modelled by the real numbers `ℝ`; `math.Sin`,
  `math.Cos`, `math.Sqrt`, `math.Atan2` and `math.Pi` are modelled by the
  corresponding exact real functions, and `math.MaxFloat64` by the real
  number `(2^53 - 1) * 2^971` (the exact value of the largest finite
  `float64`).
* A `uuid.UUID` is modelled by a `Nat`.  The grouping key used by
  `groupStopsByParticipant` in Go is the string `"creator"` for a nil
  `ApplicationID` and `ApplicationID.String()` otherwise; since
  `uuid.UUID.String()` is injective and never produces the string
  `"creator"`, two stops receive the same key exactly when their
  `ApplicationID`s are both nil or both equal, which is faithfully modelled
  by using the `Option Nat` value itself as the key.
* A Go map used only for point lookups (`seen` in
  `groupStopsByParticipant`) is modelled by an association list with the
  same insertion discipline; no code path iterates over the map, so map
  iteration order is irrelevant.
* Slices are modelled by `List`.  A Go slice length is at most
  `math.MaxInt64`, so quantifications over search inputs carry the bound
  `length < 2^63` where a theorem needs it.
* `Search` performs I/O only to fetch the candidate routes
  (`fetchSearchableRoutes`); its scoring, filtering and sorting core is a
  pure function of the fetched routes and the query, which is what is
  embedded here (the candidate list is a parameter).  `sort.Slice` with the
  strict comparator `withDev[i].dev < withDev[j].dev` arranges the slice in
  non-decreasing order of `dev` with an unspecified tie order; it is
  modelled by `List.insertionSort` with the total relation `·.2 ≤ ·.2`.
-/

/-- Stop mirrors the Go struct `Stop` of `internal/route` (the fields read
by the scoring engine; `applicationID = none` denotes a creator stop). -/
structure Stop where
  id : Nat
  applicationID : Option Nat
  position : Nat
  lat : ℝ
  lng : ℝ

/-- SearchStopInput mirrors the Go struct `SearchStopInput` (a rider's
requested via-point). -/
structure SearchStopInput where
  lat : ℝ
  lng : ℝ

/-- SearchInput mirrors the Go struct `SearchInput` (a rider's query). -/
structure SearchInput where
  startLat : ℝ
  startLng : ℝ
  endLat : ℝ
  endLng : ℝ
  stops : List SearchStopInput

/-- Route mirrors the Go struct `Route` of `internal/route` (the fields
read by the scoring and search engine). -/
structure Route where
  startLat : ℝ
  startLng : ℝ
  endLat : ℝ
  endLng : ℝ
  maxPassengers : Nat
  maxDeviation : ℝ
  availablePassengers : Nat
  stops : List Stop

/-- atan2 models Go's `math.Atan2 (y, x)` on real arguments (the finite,
non-NaN cases of its contract; signed zeros do not exist in `ℝ`). -/
noncomputable def atan2 (y x : ℝ) : ℝ :=
  if 0 < x then Real.arctan (y / x)
  else if x < 0 then
    (if 0 ≤ y then Real.arctan (y / x) + Real.pi
     else Real.arctan (y / x) - Real.pi)
  else
    (if 0 < y then Real.pi / 2
     else if y < 0 then -(Real.pi / 2)
     else 0)

/-- Haversine embeds Go `Haversine` (`calculations.go`): great-circle
distance in kilometers between two points. -/
noncomputable def Haversine (lat1 lng1 lat2 lng2 : ℝ) : ℝ :=
  let earthRadiusKm : ℝ := 6371
  let dLat := (lat2 - lat1) * Real.pi / 180
  let dLng := (lng2 - lng1) * Real.pi / 180
  let a := Real.sin (dLat / 2) * Real.sin (dLat / 2) +
    Real.cos (lat1 * Real.pi / 180) * Real.cos (lat2 * Real.pi / 180) *
      Real.sin (dLng / 2) * Real.sin (dLng / 2)
  let c := 2 * atan2 (Real.sqrt a) (Real.sqrt (1 - a))
  earthRadiusKm * c

/-- maxFloat64 is the exact real value of Go's `math.MaxFloat64`,
`(2 - 2^-52) * 2^1023 = (2^53 - 1) * 2^971`. -/
noncomputable def maxFloat64 : ℝ := (2 ^ 53 - 1) * 2 ^ 971

/-- maxInterleavings embeds the Go constant `maxInterleavings = 500`. -/
def maxInterleavings : Nat := 500

/-- lookupKey models the read access `seen[k]` of the Go map
`seen map[key]int` by searching the association list that records the same
insertions. -/
def lookupKey (k : Option Nat) : List (Option Nat × Nat) → Option Nat
  | [] => none
  | (k', i) :: rest => if k' = k then some i else lookupKey k rest

/-- groupStep is the body of the loop of Go `groupStopsByParticipant`:
the state pairs the `ordered` group list with the `seen` key-to-index map;
a stop joins its key's existing group, or starts a new group whose index
is recorded. -/
def groupStep (st : List (List Stop) × List (Option Nat × Nat)) (s : Stop) :
    List (List Stop) × List (Option Nat × Nat) :=
  let k := s.applicationID
  match lookupKey k st.2 with
  | some idx => (st.1.set idx (st.1.getD idx [] ++ [s]), st.2)
  | none => (st.1 ++ [[s]], st.2 ++ [(k, st.1.length)])

/-- groupStopsByParticipant embeds Go `groupStopsByParticipant`
(`calculations.go`): groups stops by `application_id` (none = creator),
each group keeping position order. -/
def groupStopsByParticipant (stops : List Stop) : List (List Stop) :=
  (stops.foldl groupStep ([], [])).1

/-- totalLen embeds Go `totalLen`: the total number of stops across
groups. -/
def totalLen (groups : List (List Stop)) : Nat :=
  (groups.map List.length).sum

/-- Helper for the termination of `gen`: consuming the head of a non-empty
group strictly decreases the total number of remaining stops. -/
theorem totalLen_set_lt (rem : List (List Stop)) (g : Nat) (s : Stop)
    (rest : List Stop) (h : rem.getD g [] = s :: rest) :
    totalLen (rem.set g rest) < totalLen rem := by
  induction rem generalizing g with
  | nil => simp [List.getD] at h
  | cons r rs ih =>
    cases g with
    | zero =>
      simp only [List.getD_cons_zero] at h
      subst h
      simp [totalLen, List.set]
    | succ g =>
      simp only [List.getD_cons_succ] at h
      have := ih g h
      simp only [totalLen, List.set, List.map_cons, List.sum_cons] at *
      omega

/-- gen embeds the recursive closure `gen` inside Go `allInterleavings`:
the depth-first enumeration state is the list `rem` of not-yet-consumed
suffixes of the groups (`rem[g] = groups[g][indices[g]:]`), the partial
ordering `current`, and the accumulated `result`. -/
def gen (max : Nat) (rem : List (List Stop)) (current : List Stop)
    (result : List (List Stop)) : List (List Stop) :=
  if max ≤ result.length then result
  else if totalLen rem = 0 then result ++ [current]
  else
    (List.range rem.length).foldl
      (fun acc g =>
        match h : rem.getD g [] with
        | [] => acc
        | s :: rest => gen max (rem.set g rest) (current ++ [s]) acc)
      result
termination_by totalLen rem
decreasing_by exact totalLen_set_lt rem g s rest h

/-- allInterleavings embeds Go `allInterleavings` (`calculations.go`): all
order-preserving merges of the groups, up to `max` of them. -/
def allInterleavings (groups : List (List Stop)) (max : Nat) :
    List (List Stop) :=
  if groups.length = 0 then []
  else if groups.length = 1 then [groups.getD 0 []]
  else gen max groups [] []

/-- buildSegmentsLoop embeds the loop of Go `buildSegmentsFromStops`
together with its final append: it walks the consecutive pairs starting
from the running previous point and emits each pair's midpoint. -/
noncomputable def buildSegmentsLoop (prevLat prevLng endLat endLng : ℝ) :
    List Stop → List (ℝ × ℝ)
  | [] => [((prevLat + endLat) / 2, (prevLng + endLng) / 2)]
  | s :: rest =>
    ((prevLat + s.lat) / 2, (prevLng + s.lng) / 2) ::
      buildSegmentsLoop s.lat s.lng endLat endLng rest

/-- buildSegmentsFromStops embeds Go `buildSegmentsFromStops`
(`calculations.go`): segment midpoints for the given stop order. -/
noncomputable def buildSegmentsFromStops (startLat startLng endLat endLng : ℝ)
    (stops : List Stop) : List (ℝ × ℝ) :=
  if stops.length = 0 then
    [((startLat + endLat) / 2, (startLng + endLng) / 2)]
  else
    buildSegmentsLoop startLat startLng endLat endLng stops

/-- minDistanceToSegment embeds Go `minDistanceToSegment`
(`calculations.go`): minimum Haversine distance from a point to any
segment midpoint, starting from the `math.MaxFloat64` sentinel. -/
noncomputable def minDistanceToSegment (lat lng : ℝ)
    (segments : List (ℝ × ℝ)) : ℝ :=
  segments.foldl
    (fun m seg =>
      let d := Haversine lat lng seg.1 seg.2
      if d < m then d else m)
    maxFloat64

/-- deviationForStops embeds Go `deviationForStops` (`calculations.go`):
the sum over the rider's requested stops of the minimum distance to the
route segments built from the given stop order. -/
noncomputable def deviationForStops (startLat startLng endLat endLng : ℝ)
    (stops : List Stop) (search : SearchInput) : ℝ :=
  let segments := buildSegmentsFromStops startLat startLng endLat endLng stops
  search.stops.foldl
    (fun dev us => dev + minDistanceToSegment us.lat us.lng segments) 0

/-- CalculateDeviation embeds Go `CalculateDeviation` (`calculations.go`):
endpoint deviation plus the best stop deviation over all enumerated
interleavings (the fold starts from the `math.MaxFloat64` sentinel). -/
noncomputable def CalculateDeviation (route : Route) (search : SearchInput) : ℝ :=
  let baseDev :=
    Haversine search.startLat search.startLng route.startLat route.startLng +
      Haversine search.endLat search.endLng route.endLat route.endLng
  let groups := groupStopsByParticipant route.stops
  let orderings := allInterleavings groups maxInterleavings
  if orderings.length = 0 then
    baseDev + deviationForStops route.startLat route.startLng route.endLat
      route.endLng route.stops search
  else
    baseDev + orderings.foldl
      (fun minStopDev ordered =>
        let d := deviationForStops route.startLat route.startLng route.endLat
          route.endLng ordered search
        if d < minStopDev then d else minStopDev)
      maxFloat64

/-- endpointDeviation names the quantity `baseDev` of Go
`CalculateDeviation`: the sum of the start-to-start and end-to-end
distances between the query and the route. -/
noncomputable def endpointDeviation (route : Route) (search : SearchInput) : ℝ :=
  Haversine search.startLat search.startLng route.startLat route.startLng +
    Haversine search.endLat search.endLng route.endLat route.endLng

/-- Search embeds the pure core of Go `Search` (`route.go`): score every
fetched candidate, drop those whose deviation exceeds the route's
`MaxDeviation`, sort the survivors in non-decreasing deviation order and
return the routes. -/
noncomputable def Search (routes : List Route) (search : SearchInput) :
    List Route :=
  let withDev := routes.foldl
    (fun acc r =>
      let dev := CalculateDeviation r search
      if dev > r.maxDeviation then acc else acc ++ [(r, dev)])
    []
  let sorted := List.insertionSort (fun a b : Route × ℝ => a.2 ≤ b.2) withDev
  sorted.map Prod.fst

/-! Helper lemmas about the sentinel-initialised minimum fold shared by
`minDistanceToSegment` and the ordering loop of `CalculateDeviation`. -/

/-- The minimum fold never exceeds its initial value. -/
theorem foldl_min_le_init {α : Type} (f : α → ℝ) (l : List α) (a : ℝ) :
    l.foldl (fun m x => if f x < m then f x else m) a ≤ a := by
  induction l generalizing a with
  | nil => simp
  | cons x xs ih =>
    simp only [List.foldl_cons]
    refine le_trans (ih _) ?_
    by_cases h : f x < a
    · simpa [h] using le_of_lt h
    · simp [h]

/-- The minimum fold is bounded by every list element's value. -/
theorem foldl_min_le_mem {α : Type} (f : α → ℝ) (l : List α) (a : ℝ)
    {x : α} (hx : x ∈ l) :
    l.foldl (fun m x => if f x < m then f x else m) a ≤ f x := by
  induction l generalizing a with
  | nil => cases hx
  | cons y ys ih =>
    simp only [List.foldl_cons]
    rcases List.mem_cons.mp hx with h | h
    · subst h
      refine le_trans (foldl_min_le_init f ys _) ?_
      by_cases h : f x < a
      · simp [h]
      · simpa [h] using not_lt.mp h
    · exact ih _ h

/-- The minimum fold returns its initial value or one of the element
values. -/
theorem foldl_min_mem {α : Type} (f : α → ℝ) (l : List α) (a : ℝ) :
    l.foldl (fun m x => if f x < m then f x else m) a = a ∨
      ∃ x ∈ l, l.foldl (fun m x => if f x < m then f x else m) a = f x := by
  induction l generalizing a with
  | nil => left; rfl
  | cons y ys ih =>
    simp only [List.foldl_cons]
    rcases ih (if f y < a then f y else a) with h | ⟨x, hx, h⟩
    · by_cases hy : f y < a
      · right
        exact ⟨y, List.mem_cons_self y ys, by simpa [hy] using h⟩
      · left
        simpa [hy] using h
    · right
      exact ⟨x, List.mem_cons_of_mem y hx, h⟩

/-- When some element value is at most the initial sentinel, the minimum
fold computes the least element value. -/
theorem foldl_min_isLeast {α : Type} (f : α → ℝ) (l : List α) (a : ℝ)
    (h : ∃ x ∈ l, f x ≤ a) :
    IsLeast {r : ℝ | ∃ x ∈ l, r = f x}
      (l.foldl (fun m x => if f x < m then f x else m) a) := by
  constructor
  · rcases foldl_min_mem f l a with heq | ⟨x, hx, heq⟩
    · obtain ⟨x, hx, hfx⟩ := h
      have h1 := foldl_min_le_mem f l a hx
      have h2 : l.foldl (fun m x => if f x < m then f x else m) a = f x := by
        rw [heq] at h1 ⊢
        exact le_antisymm h1 hfx
      exact ⟨x, hx, h2⟩
    · exact ⟨x, hx, heq⟩
  · rintro r ⟨x, hx, rfl⟩
    exact foldl_min_le_mem f l a hx

/-! Bounds on `atan2` and `Haversine`. -/

/-- Real arctangent is nonnegative on nonnegative arguments. -/
theorem arctan_nonneg_of_nonneg {t : ℝ} (ht : 0 ≤ t) : 0 ≤ Real.arctan t := by
  have h := Real.arctan_strictMono.monotone ht
  rwa [Real.arctan_zero] at h

/-- atan2 of nonnegative arguments lies in the first quadrant:
nonnegative. -/
theorem atan2_nonneg {y x : ℝ} (hy : 0 ≤ y) (hx : 0 ≤ x) : 0 ≤ atan2 y x := by
  unfold atan2
  by_cases hx0 : 0 < x
  · simp only [hx0, if_true]
    exact arctan_nonneg_of_nonneg (div_nonneg hy (le_of_lt hx0))
  · have hxe : ¬ x < 0 := not_lt.mpr hx
    simp only [hx0, hxe, if_false]
    by_cases hy0 : 0 < y
    · simp only [hy0, if_true]
      linarith [Real.pi_pos]
    · have hye : ¬ y < 0 := not_lt.mpr hy
      simp [hy0, hye]

/-- atan2 of nonnegative arguments lies in the first quadrant: at most
π/2. -/
theorem atan2_le_pi_div_two {y x : ℝ} (hy : 0 ≤ y) (hx : 0 ≤ x) :
    atan2 y x ≤ Real.pi / 2 := by
  unfold atan2
  by_cases hx0 : 0 < x
  · simp only [hx0, if_true]
    exact le_of_lt (Real.arctan_lt_pi_div_two _)
  · have hxe : ¬ x < 0 := not_lt.mpr hx
    simp only [hx0, hxe, if_false]
    by_cases hy0 : 0 < y
    · simp [hy0]
    · have hye : ¬ y < 0 := not_lt.mpr hy
      simp only [hy0, hye, if_false]
      linarith [Real.pi_pos]

/-- The Haversine core expression is nonnegative, whatever the
intermediate value `a`. -/
theorem haversine_core_nonneg (a : ℝ) :
    0 ≤ 6371 * (2 * atan2 (Real.sqrt a) (Real.sqrt (1 - a))) := by
  have h := atan2_nonneg (Real.sqrt_nonneg a) (Real.sqrt_nonneg (1 - a))
  linarith

/-- The Haversine core expression is at most 6371 · π, whatever the
intermediate value `a`. -/
theorem haversine_core_le (a : ℝ) :
    6371 * (2 * atan2 (Real.sqrt a) (Real.sqrt (1 - a))) ≤ 6371 * Real.pi := by
  have h := atan2_le_pi_div_two (Real.sqrt_nonneg a) (Real.sqrt_nonneg (1 - a))
  linarith

/-- Haversine distances are nonnegative. -/
theorem Haversine_nonneg (lat1 lng1 lat2 lng2 : ℝ) :
    0 ≤ Haversine lat1 lng1 lat2 lng2 := by
  simp only [Haversine]
  exact haversine_core_nonneg _

/-- Haversine distances never exceed 6371 · π (half the Earth's great
circle). -/
theorem Haversine_le_bound (lat1 lng1 lat2 lng2 : ℝ) :
    Haversine lat1 lng1 lat2 lng2 ≤ 6371 * Real.pi := by
  simp only [Haversine]
  exact haversine_core_le _

/-- maxFloat64 is positive. -/
theorem maxFloat64_pos : 0 < maxFloat64 := by
  unfold maxFloat64
  norm_num

/-- Any real count below the Go slice-length bound times the largest
possible Haversine distance stays below the float sentinel. -/
theorem count_mul_bound_lt_maxFloat64 {n : Nat} (h : n < 2 ^ 63) :
    (n : ℝ) * (6371 * Real.pi) < maxFloat64 := by
  have h1 : (n : ℝ) ≤ 2 ^ 63 := by
    have h2 : ((n : ℝ) : ℝ) ≤ ((2 ^ 63 : Nat) : ℝ) := Nat.cast_le.mpr (le_of_lt h)
    push_cast at h2
    linarith
  have hπ : Real.pi < 3.15 := Real.pi_lt_d2
  have hπ0 : 0 < Real.pi := Real.pi_pos
  calc (n : ℝ) * (6371 * Real.pi) ≤ 2 ^ 63 * (6371 * Real.pi) := by
        have : (0:ℝ) ≤ 6371 * Real.pi := by positivity
        exact mul_le_mul_of_nonneg_right h1 this
    _ < 2 ^ 63 * (6371 * 3.15) := by
        have : (0:ℝ) < 2 ^ 63 := by positivity
        nlinarith
    _ ≤ maxFloat64 := by
        unfold maxFloat64
        norm_num

/-- A single Haversine distance is always strictly below the
`math.MaxFloat64` sentinel. -/
theorem Haversine_lt_maxFloat64 (lat1 lng1 lat2 lng2 : ℝ) :
    Haversine lat1 lng1 lat2 lng2 < maxFloat64 := by
  refine lt_of_le_of_lt (Haversine_le_bound lat1 lng1 lat2 lng2) ?_
  have h := @count_mul_bound_lt_maxFloat64 1 (by norm_num)
  simpa using h

/-- Haversine from a point to itself is zero. -/
theorem Haversine_self (lat lng : ℝ) : Haversine lat lng lat lng = 0 := by
  simp [Haversine, atan2, Real.sin_zero, Real.sqrt_zero, Real.sqrt_one,
    Real.arctan_zero]

/-! Facts about `buildSegmentsFromStops`, `minDistanceToSegment` and
`deviationForStops`. -/

/-- The segment-building loop always emits at least one midpoint. -/
theorem buildSegmentsLoop_ne_nil (prevLat prevLng endLat endLng : ℝ)
    (stops : List Stop) :
    buildSegmentsLoop prevLat prevLng endLat endLng stops ≠ [] := by
  cases stops <;> simp [buildSegmentsLoop]

/-- buildSegmentsFromStops always returns at least one representative
point. -/
theorem buildSegmentsFromStops_ne_nil (startLat startLng endLat endLng : ℝ)
    (stops : List Stop) :
    buildSegmentsFromStops startLat startLng endLat endLng stops ≠ [] := by
  unfold buildSegmentsFromStops
  by_cases h : stops.length = 0
  · simp [h]
  · simp only [h, if_false]
    exact buildSegmentsLoop_ne_nil startLat startLng endLat endLng stops

/-- minDistanceToSegment unfolded to the generic minimum fold. -/
theorem minDistanceToSegment_eq (lat lng : ℝ) (segments : List (ℝ × ℝ)) :
    minDistanceToSegment lat lng segments =
      segments.foldl
        (fun m seg => if Haversine lat lng seg.1 seg.2 < m
          then Haversine lat lng seg.1 seg.2 else m) maxFloat64 := rfl

/-- minDistanceToSegment is nonnegative. -/
theorem minDistanceToSegment_nonneg (lat lng : ℝ) (segments : List (ℝ × ℝ)) :
    0 ≤ minDistanceToSegment lat lng segments := by
  rw [minDistanceToSegment_eq]
  rcases foldl_min_mem (fun seg : ℝ × ℝ => Haversine lat lng seg.1 seg.2)
      segments maxFloat64 with h | ⟨x, _, h⟩
  · rw [h]; exact le_of_lt maxFloat64_pos
  · rw [h]; exact Haversine_nonneg lat lng x.1 x.2

/-- On a non-empty segment list, minDistanceToSegment is bounded by
6371 · π. -/
theorem minDistanceToSegment_le_bound (lat lng : ℝ) {segments : List (ℝ × ℝ)}
    (h : segments ≠ []) :
    minDistanceToSegment lat lng segments ≤ 6371 * Real.pi := by
  obtain ⟨s, rest, rfl⟩ := List.exists_cons_of_ne_nil h
  have h1 := foldl_min_le_mem (fun seg : ℝ × ℝ => Haversine lat lng seg.1 seg.2)
    (s :: rest) maxFloat64 (List.mem_cons_self s rest)
  rw [minDistanceToSegment_eq]
  exact le_trans h1 (Haversine_le_bound lat lng s.1 s.2)

/-- On a non-empty segment list the sentinel is overwritten: the result is
one of the actual Haversine distances to the segment points. -/
theorem minDistanceToSegment_attained (lat lng : ℝ) {segments : List (ℝ × ℝ)}
    (h : segments ≠ []) :
    minDistanceToSegment lat lng segments ∈
      segments.map (fun seg => Haversine lat lng seg.1 seg.2) := by
  obtain ⟨s, rest, rfl⟩ := List.exists_cons_of_ne_nil h
  have h0 : ∃ x ∈ s :: rest,
      (fun seg : ℝ × ℝ => Haversine lat lng seg.1 seg.2) x ≤ maxFloat64 :=
    ⟨s, List.mem_cons_self s rest, le_of_lt (Haversine_lt_maxFloat64 lat lng s.1 s.2)⟩
  obtain ⟨⟨x, hx, heq⟩, _⟩ := foldl_min_isLeast
    (fun seg : ℝ × ℝ => Haversine lat lng seg.1 seg.2) (s :: rest) maxFloat64 h0
  rw [List.mem_map]
  refine ⟨x, hx, ?_⟩
  rw [minDistanceToSegment_eq]
  exact heq.symm

/-- A fold accumulating a sum equals the initial value plus the list
sum. -/
theorem foldl_add_eq {α : Type} (f : α → ℝ) (l : List α) (init : ℝ) :
    l.foldl (fun dev x => dev + f x) init = init + (l.map f).sum := by
  induction l generalizing init with
  | nil => simp
  | cons x xs ih => simp [ih, add_assoc]

/-- deviationForStops unfolded to a sum of per-via-point minimum
distances. -/
theorem deviationForStops_eq (startLat startLng endLat endLng : ℝ)
    (stops : List Stop) (search : SearchInput) :
    deviationForStops startLat startLng endLat endLng stops search =
      (search.stops.map (fun us => minDistanceToSegment us.lat us.lng
        (buildSegmentsFromStops startLat startLng endLat endLng stops))).sum := by
  simp only [deviationForStops]
  rw [foldl_add_eq]
  ring

/-- deviationForStops is nonnegative. -/
theorem deviationForStops_nonneg (startLat startLng endLat endLng : ℝ)
    (stops : List Stop) (search : SearchInput) :
    0 ≤ deviationForStops startLat startLng endLat endLng stops search := by
  rw [deviationForStops_eq]
  refine List.sum_nonneg ?_
  intro x hx
  obtain ⟨us, _, rfl⟩ := List.mem_map.mp hx
  exact minDistanceToSegment_nonneg us.lat us.lng _

/-- deviationForStops is bounded by the number of via-points times the
largest possible single distance. -/
theorem deviationForStops_le (startLat startLng endLat endLng : ℝ)
    (stops : List Stop) (search : SearchInput) :
    deviationForStops startLat startLng endLat endLng stops search ≤
      (search.stops.length : ℝ) * (6371 * Real.pi) := by
  rw [deviationForStops_eq]
  have h := List.sum_le_card_nsmul
    (search.stops.map (fun us => minDistanceToSegment us.lat us.lng
      (buildSegmentsFromStops startLat startLng endLat endLng stops)))
    (6371 * Real.pi) ?_
  · simpa [nsmul_eq_mul] using h
  · intro x hx
    obtain ⟨us, _, rfl⟩ := List.mem_map.mp hx
    exact minDistanceToSegment_le_bound us.lat us.lng
      (buildSegmentsFromStops_ne_nil startLat startLng endLat endLng stops)

/-! Facts about the backtracking enumeration `gen` / `allInterleavings`. -/

/-- Equation lemma for the recursive enumeration `gen`. -/
theorem gen_eq (max : Nat) (rem : List (List Stop)) (current : List Stop)
    (result : List (List Stop)) :
    gen max rem current result =
      if max ≤ result.length then result
      else if totalLen rem = 0 then result ++ [current]
      else
        (List.range rem.length).foldl
          (fun acc g =>
            match h : rem.getD g [] with
            | [] => acc
            | s :: rest => gen max (rem.set g rest) (current ++ [s]) acc)
          result := by
  rw [gen]

/-- Reading an updated position of a group list. -/
theorem getD_set_self (l : List (List Stop)) (i : Nat) (x : List Stop)
    (h : i < l.length) : (l.set i x).getD i [] = x := by
  rw [List.getD_eq_getElem _ _ (by simpa using h)]
  exact List.getElem_set_self (by simpa using h)

/-- Reading an untouched position of an updated group list. -/
theorem getD_set_ne (l : List (List Stop)) {i j : Nat} (x : List Stop)
    (h : i ≠ j) : (l.set i x).getD j [] = l.getD j [] := by
  by_cases hj : j < l.length
  · rw [List.getD_eq_getElem _ _ (by simpa using hj),
      List.getD_eq_getElem _ _ hj]
    exact List.getElem_set_ne h _
  · rw [List.getD_eq_default _ _ (by simpa using not_lt.mp hj),
      List.getD_eq_default _ _ (not_lt.mp hj)]

/-- A position holding a non-empty group is in range. -/
theorem getD_ne_nil_lt {l : List (List Stop)} {g : Nat}
    (h : l.getD g [] ≠ []) : g < l.length := by
  by_contra hg
  exact h (List.getD_eq_default _ _ (not_lt.mp hg))

/-- When no stops remain, every position holds the empty group. -/
theorem totalLen_eq_zero_getD (rem : List (List Stop))
    (h : totalLen rem = 0) : ∀ i, rem.getD i [] = [] := by
  induction rem with
  | nil => intro i; cases i <;> rfl
  | cons r rs ih =>
    have hr : r.length = 0 ∧ totalLen rs = 0 := by
      simp only [totalLen, List.map_cons, List.sum_cons] at h
      simp only [totalLen]
      omega
    intro i
    cases i with
    | zero => simpa [List.length_eq_zero] using hr.1
    | succ i =>
      rw [List.getD_cons_succ]
      exact ih hr.2 i

/-- Multiset view of a cons group. -/
theorem ofList_cons (a : Stop) (l : List Stop) :
    Multiset.ofList (a :: l) = a ::ₘ Multiset.ofList l := rfl

/-- Multiset view of the empty group. -/
theorem ofList_nil : Multiset.ofList ([] : List Stop) = 0 := rfl

/-- Multiset view of concatenated stop lists. -/
theorem ofList_append (l₁ l₂ : List Stop) :
    Multiset.ofList (l₁ ++ l₂) = Multiset.ofList l₁ + Multiset.ofList l₂ := rfl

/-- When no stops remain, the remaining groups carry the empty multiset. -/
theorem sum_coe_eq_zero (rem : List (List Stop)) (h : totalLen rem = 0) :
    (rem.map (fun l => Multiset.ofList l)).sum = 0 := by
  induction rem with
  | nil => rfl
  | cons r rs ih =>
    have hr : r.length = 0 ∧ totalLen rs = 0 := by
      simp only [totalLen, List.map_cons, List.sum_cons] at h
      simp only [totalLen]
      omega
    have hrnil : r = [] := List.length_eq_zero.mp hr.1
    subst hrnil
    simp only [List.map_cons, List.sum_cons, ih hr.2]
    rfl

/-- When some stop remains, some position holds a non-empty group. -/
theorem totalLen_ne_zero_exists {rem : List (List Stop)}
    (h : totalLen rem ≠ 0) : ∃ g, rem.getD g [] ≠ [] := by
  induction rem with
  | nil => exact absurd rfl h
  | cons r rs ih =>
    by_cases hr : r = []
    · subst hr
      have : totalLen rs ≠ 0 := by
        simpa [totalLen] using h
      obtain ⟨g, hg⟩ := ih this
      exact ⟨g + 1, by simpa [List.getD_cons_succ] using hg⟩
    · exact ⟨0, by rw [List.getD_cons_zero]; exact hr⟩

/-- Consuming the head of a group moves one stop from the remaining
multiset. -/
theorem sum_coe_set (rem : List (List Stop)) (g : Nat) (s : Stop)
    (rest : List Stop) (hg : rem.getD g [] = s :: rest) :
    ((rem.set g rest).map (fun l => Multiset.ofList l)).sum + {s} =
      (rem.map (fun l => Multiset.ofList l)).sum := by
  induction rem generalizing g with
  | nil => simp [List.getD] at hg
  | cons r rs ih =>
    cases g with
    | zero =>
      simp only [List.getD_cons_zero] at hg
      subst hg
      simp only [List.set, List.map_cons, List.sum_cons]
      rw [ofList_cons, ← Multiset.singleton_add]
      abel
    | succ g =>
      simp only [List.getD_cons_succ] at hg
      simp only [List.set, List.map_cons, List.sum_cons]
      rw [add_assoc, ih g hg]

/-- The enumeration only ever appends to the accumulated result list. -/
theorem gen_length_mono (max : Nat) : ∀ (n : Nat) (rem : List (List Stop))
    (current : List Stop) (result : List (List Stop)), totalLen rem ≤ n →
    result.length ≤ (gen max rem current result).length := by
  intro n
  induction n with
  | zero =>
    intro rem current result hrem
    rw [gen_eq]
    by_cases h1 : max ≤ result.length
    · simp [h1]
    · have h2 : totalLen rem = 0 := Nat.le_zero.mp hrem
      simp [h1, h2]
  | succ n ih =>
    intro rem current result hrem
    rw [gen_eq]
    by_cases h1 : max ≤ result.length
    · simp [h1]
    · by_cases h2 : totalLen rem = 0
      · simp [h1, h2]
      · simp only [h1, h2, if_false]
        have hfold : ∀ (gs : List Nat) (acc : List (List Stop)),
            acc.length ≤ (List.foldl (fun acc g =>
              match h : rem.getD g [] with
              | [] => acc
              | s :: rest => gen max (rem.set g rest) (current ++ [s]) acc)
                acc gs).length := by
          intro gs
          induction gs with
          | nil => intro acc; simp
          | cons g gs ihg =>
            intro acc
            rw [List.foldl_cons]
            refine le_trans ?_ (ihg _)
            beta_reduce
            split
            · exact le_refl _
            · rename_i s rest hg
              refine ih (rem.set g rest) (current ++ [s]) acc ?_
              have := totalLen_set_lt rem g s rest hg
              omega
        exact hfold (List.range rem.length) result

/-- One pass of the enumeration loop never shrinks the result list. -/
theorem genFold_length_mono (max : Nat) (rem : List (List Stop))
    (current : List Stop) : ∀ (gs : List Nat) (acc : List (List Stop)),
    acc.length ≤ (List.foldl (fun acc g =>
      match h : rem.getD g [] with
      | [] => acc
      | s :: rest => gen max (rem.set g rest) (current ++ [s]) acc)
        acc gs).length := by
  intro gs
  induction gs with
  | nil => intro acc; simp
  | cons g gs ihg =>
    intro acc
    rw [List.foldl_cons]
    refine le_trans ?_ (ihg _)
    beta_reduce
    split
    · exact le_refl _
    · exact gen_length_mono max (totalLen _) _ _ _ (le_refl _)

/-- The enumeration never accumulates more than `max` results. -/
theorem gen_length_le_max (max : Nat) : ∀ (n : Nat) (rem : List (List Stop))
    (current : List Stop) (result : List (List Stop)), totalLen rem ≤ n →
    result.length ≤ max → (gen max rem current result).length ≤ max := by
  intro n
  induction n with
  | zero =>
    intro rem current result hrem hres
    rw [gen_eq]
    by_cases h1 : max ≤ result.length
    · simpa [h1] using hres
    · have h2 : totalLen rem = 0 := Nat.le_zero.mp hrem
      rw [if_neg h1, if_pos h2]
      have := not_le.mp h1
      simp only [List.length_append, List.length_singleton]
      omega
  | succ n ih =>
    intro rem current result hrem hres
    rw [gen_eq]
    by_cases h1 : max ≤ result.length
    · simpa [h1] using hres
    · by_cases h2 : totalLen rem = 0
      · rw [if_neg h1, if_pos h2]
        have := not_le.mp h1
        simp only [List.length_append, List.length_singleton]
        omega
      · rw [if_neg h1, if_neg h2]
        have hfold : ∀ (gs : List Nat) (acc : List (List Stop)),
            acc.length ≤ max →
            (List.foldl (fun acc g =>
              match h : rem.getD g [] with
              | [] => acc
              | s :: rest => gen max (rem.set g rest) (current ++ [s]) acc)
                acc gs).length ≤ max := by
          intro gs
          induction gs with
          | nil => intro acc hacc; simpa using hacc
          | cons g gs ihg =>
            intro acc hacc
            rw [List.foldl_cons]
            refine ihg _ ?_
            beta_reduce
            split
            · exact hacc
            · rename_i s rest hg
              refine ih (rem.set g rest) (current ++ [s]) acc ?_ hacc
              have := totalLen_set_lt rem g s rest hg
              omega
        exact hfold (List.range rem.length) result hres

/-- While the cap has not been reached, the enumeration strictly grows the
result list: at least one more complete interleaving is produced. -/
theorem gen_length_strict (max : Nat) : ∀ (n : Nat) (rem : List (List Stop))
    (current : List Stop) (result : List (List Stop)), totalLen rem ≤ n →
    result.length < max → result.length < (gen max rem current result).length := by
  intro n
  induction n with
  | zero =>
    intro rem current result hrem hres
    rw [gen_eq, if_neg (not_le.mpr hres)]
    have h2 : totalLen rem = 0 := Nat.le_zero.mp hrem
    rw [if_pos h2]
    simp
  | succ n ih =>
    intro rem current result hrem hres
    rw [gen_eq, if_neg (not_le.mpr hres)]
    by_cases h2 : totalLen rem = 0
    · rw [if_pos h2]
      simp
    · rw [if_neg h2]
      obtain ⟨g0, hg0⟩ := totalLen_ne_zero_exists h2
      have hg0lt : g0 < rem.length := getD_ne_nil_lt hg0
      have hg0mem : g0 ∈ List.range rem.length := List.mem_range.mpr hg0lt
      have hfold : ∀ (gs : List Nat) (acc : List (List Stop)), g0 ∈ gs →
          result.length ≤ acc.length →
          result.length < (List.foldl (fun acc g =>
            match h : rem.getD g [] with
            | [] => acc
            | s :: rest => gen max (rem.set g rest) (current ++ [s]) acc)
              acc gs).length := by
        intro gs
        induction gs with
        | nil => intro acc hmem _; exact absurd hmem (List.not_mem_nil g0)
        | cons g gs ihg =>
          intro acc hmem hacc
          rw [List.foldl_cons]
          rcases List.mem_cons.mp hmem with heq | hmem'
          · subst heq
            refine lt_of_lt_of_le ?_ (genFold_length_mono max rem current gs _)
            beta_reduce
            split
            · rename_i hnil
              exact absurd hnil hg0
            · rename_i s rest hg
              by_cases hm : acc.length < max
              · have hgen := ih (rem.set g0 rest) (current ++ [s]) acc
                  (by have := totalLen_set_lt rem g0 s rest hg; omega) hm
                omega
              · have hmax : max ≤ acc.length := not_lt.mp hm
                have hgen := gen_length_mono max (totalLen (rem.set g0 rest))
                  (rem.set g0 rest) (current ++ [s]) acc (le_refl _)
                omega
          · refine ihg _ hmem' ?_
            refine le_trans hacc ?_
            beta_reduce
            split
            · exact le_refl _
            · exact gen_length_mono max (totalLen _) _ _ _ (le_refl _)
      exact hfold (List.range rem.length) result hg0mem (le_refl _)

/-- IsMergeOf states the spec's contract for one enumerated ordering: it
contains exactly the stops of all groups (as a multiset), and each group
appears inside it in its own relative order (as a sublist). -/
def IsMergeOf (o : List Stop) (groups : List (List Stop)) : Prop :=
  Multiset.ofList o = (groups.map (fun g => Multiset.ofList g)).sum ∧
  ∀ g ∈ groups, g.Sublist o

/-- At a completed leaf of the enumeration the accumulated partial
ordering is a merge of the original groups. -/
theorem gen_done_good (orig rem : List (List Stop)) (current : List Stop)
    (hlen : rem.length = orig.length)
    (hinv : ∀ i, i < orig.length →
      ∃ t, orig.getD i [] = t ++ rem.getD i [] ∧ t.Sublist current)
    (hms : Multiset.ofList current + (rem.map (fun l => Multiset.ofList l)).sum =
      (orig.map (fun l => Multiset.ofList l)).sum)
    (h0 : totalLen rem = 0) : IsMergeOf current orig := by
  constructor
  · rw [sum_coe_eq_zero rem h0, add_zero] at hms
    exact hms
  · intro g hg
    obtain ⟨i, hi, hgi⟩ := List.mem_iff_getElem.mp hg
    obtain ⟨t, horig, hsub⟩ := hinv i hi
    rw [totalLen_eq_zero_getD rem h0 i, List.append_nil] at horig
    have hgd : orig.getD i [] = g := by rw [List.getD_eq_getElem _ _ hi, hgi]
    rw [hgd] at horig
    rw [horig]
    exact hsub

/-- Invariant preservation through the whole enumeration: every
accumulated result is a merge of the original groups. -/
theorem gen_sound (max : Nat) (orig : List (List Stop)) : ∀ (n : Nat)
    (rem : List (List Stop)) (current : List Stop) (result : List (List Stop)),
    totalLen rem ≤ n →
    rem.length = orig.length →
    (∀ i, i < orig.length →
      ∃ t, orig.getD i [] = t ++ rem.getD i [] ∧ t.Sublist current) →
    (Multiset.ofList current + (rem.map (fun l => Multiset.ofList l)).sum =
      (orig.map (fun l => Multiset.ofList l)).sum) →
    (∀ o ∈ result, IsMergeOf o orig) →
    ∀ o ∈ gen max rem current result, IsMergeOf o orig := by
  intro n
  induction n with
  | zero =>
    intro rem current result hrem hlen hinv hms hres
    rw [gen_eq]
    by_cases h1 : max ≤ result.length
    · rw [if_pos h1]; exact hres
    · have h2 : totalLen rem = 0 := Nat.le_zero.mp hrem
      rw [if_neg h1, if_pos h2]
      intro o ho
      rcases List.mem_append.mp ho with h | h
      · exact hres o h
      · have hoc : o = current := by simpa using h
        subst hoc
        exact gen_done_good orig rem o hlen hinv hms h2
  | succ n ih =>
    intro rem current result hrem hlen hinv hms hres
    rw [gen_eq]
    by_cases h1 : max ≤ result.length
    · rw [if_pos h1]; exact hres
    · by_cases h2 : totalLen rem = 0
      · rw [if_neg h1, if_pos h2]
        intro o ho
        rcases List.mem_append.mp ho with h | h
        · exact hres o h
        · have hoc : o = current := by simpa using h
          subst hoc
          exact gen_done_good orig rem o hlen hinv hms h2
      · rw [if_neg h1, if_neg h2]
        have hfold : ∀ (gs : List Nat) (acc : List (List Stop)),
            (∀ o ∈ acc, IsMergeOf o orig) →
            ∀ o ∈ List.foldl (fun acc g =>
              match h : rem.getD g [] with
              | [] => acc
              | s :: rest => gen max (rem.set g rest) (current ++ [s]) acc)
                acc gs, IsMergeOf o orig := by
          intro gs
          induction gs with
          | nil => intro acc hacc; simpa using hacc
          | cons g gs ihg =>
            intro acc hacc
            rw [List.foldl_cons]
            refine ihg _ ?_
            beta_reduce
            split
            · exact hacc
            · rename_i s rest hg
              have hglt : g < rem.length := getD_ne_nil_lt (by rw [hg]; simp)
              refine ih (rem.set g rest) (current ++ [s]) acc ?_ ?_ ?_ ?_ hacc
              · have := totalLen_set_lt rem g s rest hg
                omega
              · rw [List.length_set]; exact hlen
              · intro i hi
                rcases eq_or_ne i g with hig | hig
                · subst hig
                  obtain ⟨t, horig, hsub⟩ := hinv i hi
                  rw [hg] at horig
                  refine ⟨t ++ [s], ?_, ?_⟩
                  · rw [getD_set_self rem i rest hglt, horig]
                    simp
                  · exact List.Sublist.append hsub (List.Sublist.refl [s])
                · obtain ⟨t, horig, hsub⟩ := hinv i hi
                  refine ⟨t, ?_, ?_⟩
                  · rw [getD_set_ne rem rest (Ne.symm hig)]
                    exact horig
                  · exact hsub.trans (List.sublist_append_left current [s])
              · rw [ofList_append]
                have hset := sum_coe_set rem g s rest hg
                rw [← hms, ← hset]
                have hsingle : Multiset.ofList [s] = ({s} : Multiset Stop) := rfl
                rw [hsingle]
                abel
        exact hfold (List.range rem.length) result hres

/-- Every ordering produced by allInterleavings is an order-preserving
merge of the input groups. -/
theorem allInterleavings_sound (groups : List (List Stop)) (max : Nat) :
    ∀ o ∈ allInterleavings groups max, IsMergeOf o groups := by
  intro o ho
  unfold allInterleavings at ho
  by_cases h0 : groups.length = 0
  · rw [if_pos h0] at ho
    exact absurd ho (List.not_mem_nil o)
  · rw [if_neg h0] at ho
    by_cases h1 : groups.length = 1
    · rw [if_pos h1] at ho
      obtain ⟨g, rfl⟩ := List.length_eq_one.mp h1
      have hog : o = g := by simpa using ho
      subst hog
      constructor
      · simp
      · intro g' hg'
        have : g' = o := by simpa using hg'
        subst this
        exact List.Sublist.refl g'
    · rw [if_neg h1] at ho
      refine gen_sound max groups (totalLen groups) groups [] []
        (le_refl _) rfl ?_ ?_ ?_ o ho
      · intro i hi
        exact ⟨[], by simp, by simp⟩
      · rw [ofList_nil, zero_add]
      · intro o' ho'
        exact absurd ho' (List.not_mem_nil o')

/-- With a positive cap, allInterleavings never returns more than `max`
orderings. -/
theorem allInterleavings_length_le (groups : List (List Stop)) {max : Nat}
    (hm : 1 ≤ max) : (allInterleavings groups max).length ≤ max := by
  unfold allInterleavings
  by_cases h0 : groups.length = 0
  · rw [if_pos h0]
    simp
  · rw [if_neg h0]
    by_cases h1 : groups.length = 1
    · rw [if_pos h1]
      simpa using hm
    · rw [if_neg h1]
      exact gen_length_le_max max (totalLen groups) groups [] [] (le_refl _)
        (by simp only [List.length_nil]; omega)

/-- allInterleavings of zero groups returns zero orderings. -/
theorem allInterleavings_nil (max : Nat) :
    allInterleavings [] max = [] := rfl

/-- allInterleavings of one group returns exactly that group, whatever the
cap. -/
theorem allInterleavings_singleton (g : List Stop) (max : Nat) :
    allInterleavings [g] max = [g] := rfl

/-- With at least one group and a positive cap, allInterleavings returns
at least one ordering. -/
theorem allInterleavings_ne_nil {groups : List (List Stop)} {max : Nat}
    (hg : groups ≠ []) (hm : 1 ≤ max) : allInterleavings groups max ≠ [] := by
  unfold allInterleavings
  have h0 : ¬ groups.length = 0 := by simpa [List.length_eq_zero] using hg
  rw [if_neg h0]
  by_cases h1 : groups.length = 1
  · rw [if_pos h1]
    simp
  · rw [if_neg h1]
    have hs := gen_length_strict max (totalLen groups) groups [] []
      (le_refl _) (by simp only [List.length_nil]; omega)
    rw [← List.length_pos]
    simpa using hs

/-! Facts about `groupStopsByParticipant`. -/

/-- A successful map lookup returns a recorded binding. -/
theorem lookupKey_mem : ∀ {k : Option Nat} {assoc : List (Option Nat × Nat)}
    {i : Nat}, lookupKey k assoc = some i → (k, i) ∈ assoc := by
  intro k assoc
  induction assoc with
  | nil => intro i h; cases h
  | cons p rest ih =>
    intro i h
    obtain ⟨k', j⟩ := p
    by_cases hk : k' = k
    · subst hk
      simp [lookupKey] at h
      subst h
      exact List.mem_cons_self _ _
    · simp only [lookupKey, if_neg hk] at h
      exact List.mem_cons_of_mem _ (ih h)

/-- groupStep when the key is already known. -/
theorem groupStep_some {st : List (List Stop) × List (Option Nat × Nat)}
    {s : Stop} {idx : Nat} (h : lookupKey s.applicationID st.2 = some idx) :
    groupStep st s = (st.1.set idx (st.1.getD idx [] ++ [s]), st.2) := by
  simp [groupStep, h]

/-- groupStep when the key is new. -/
theorem groupStep_none {st : List (List Stop) × List (Option Nat × Nat)}
    {s : Stop} (h : lookupKey s.applicationID st.2 = none) :
    groupStep st s = (st.1 ++ [[s]], st.2 ++ [(s.applicationID, st.1.length)]) := by
  simp [groupStep, h]

/-- Appending one stop to an in-range group raises the total stop count by
one. -/
theorem totalLen_set_append (l : List (List Stop)) (idx : Nat) (s : Stop)
    (h : idx < l.length) :
    totalLen (l.set idx (l.getD idx [] ++ [s])) = totalLen l + 1 := by
  induction l generalizing idx with
  | nil => cases h
  | cons r rs ih =>
    cases idx with
    | zero =>
      simp [totalLen, List.set]
      omega
    | succ idx =>
      have hlt : idx < rs.length := by simpa using h
      have := ih idx hlt
      simp only [List.getD_cons_succ, List.set, totalLen, List.map_cons,
        List.sum_cons] at *
      omega

/-- Starting one new singleton group raises the total stop count by
one. -/
theorem totalLen_append_single (l : List (List Stop)) (s : Stop) :
    totalLen (l ++ [[s]]) = totalLen l + 1 := by
  simp [totalLen]

/-- One grouping step keeps every recorded index in range and raises the
total stop count by one. -/
theorem groupStep_inv (st : List (List Stop) × List (Option Nat × Nat))
    (s : Stop) (hst : ∀ p ∈ st.2, p.2 < st.1.length) :
    (∀ p ∈ (groupStep st s).2, p.2 < ((groupStep st s).1).length) ∧
    totalLen ((groupStep st s).1) = totalLen st.1 + 1 := by
  rcases hcase : lookupKey s.applicationID st.2 with _ | idx
  · rw [groupStep_none hcase]
    constructor
    · intro p hp
      rcases List.mem_append.mp hp with h | h
      · have := hst p h
        simp only [List.length_append, List.length_singleton]
        omega
      · have hps : p = (s.applicationID, st.1.length) := by simpa using h
        subst hps
        simp only [List.length_append, List.length_singleton]
        omega
    · exact totalLen_append_single st.1 s
  · rw [groupStep_some hcase]
    refine ⟨?_, ?_⟩
    · intro p hp
      simpa [List.length_set] using hst p hp
    · exact totalLen_set_append st.1 idx s (hst _ (lookupKey_mem hcase))

/-- The grouping fold keeps every recorded index in range, and grows the
total stop count by exactly the number of consumed stops. -/
theorem groupFold_inv : ∀ (l : List Stop)
    (st : List (List Stop) × List (Option Nat × Nat)),
    (∀ p ∈ st.2, p.2 < st.1.length) →
    (∀ p ∈ (l.foldl groupStep st).2, p.2 < ((l.foldl groupStep st).1).length) ∧
    totalLen ((l.foldl groupStep st).1) = totalLen st.1 + l.length := by
  intro l
  induction l with
  | nil =>
    intro st hst
    exact ⟨hst, rfl⟩
  | cons s rest ih =>
    intro st hst
    rw [List.foldl_cons]
    obtain ⟨hinv, hplus⟩ := groupStep_inv st s hst
    obtain ⟨h1, h2⟩ := ih _ hinv
    refine ⟨h1, ?_⟩
    rw [h2, hplus]
    simp only [List.length_cons]
    omega

/-- The groups produced by groupStopsByParticipant hold exactly as many
stops as were put in. -/
theorem groupStops_totalLen (stops : List Stop) :
    totalLen (groupStopsByParticipant stops) = stops.length := by
  unfold groupStopsByParticipant
  have h := (groupFold_inv stops ([], []) (by intro p hp; cases hp)).2
  simpa [totalLen] using h

/-- The grouping fold never shrinks the group list. -/
theorem groupFold_length_mono : ∀ (l : List Stop)
    (st : List (List Stop) × List (Option Nat × Nat)),
    st.1.length ≤ ((l.foldl groupStep st).1).length := by
  intro l
  induction l with
  | nil => intro st; exact le_refl _
  | cons s rest ih =>
    intro st
    rw [List.foldl_cons]
    refine le_trans ?_ (ih (groupStep st s))
    rcases hcase : lookupKey s.applicationID st.2 with _ | idx
    · rw [groupStep_none hcase]
      simp
    · rw [groupStep_some hcase]
      simp [List.length_set]

/-- Grouping a non-empty stop list yields at least one group. -/
theorem groupStops_ne_nil {stops : List Stop} (h : stops ≠ []) :
    groupStopsByParticipant stops ≠ [] := by
  obtain ⟨s, rest, rfl⟩ := List.exists_cons_of_ne_nil h
  unfold groupStopsByParticipant
  rw [List.foldl_cons]
  have hstep : groupStep ([], []) s = ([[s]], [(s.applicationID, 0)]) := by
    rw [@groupStep_none ([], []) s rfl]
    rfl
  rw [hstep]
  have hmono := groupFold_length_mono rest ([[s]], [(s.applicationID, 0)])
  intro hnil
  rw [hnil] at hmono
  simp at hmono

/-- When every stop carries the same key, the grouping fold keeps one
group that accumulates them all in order. -/
theorem groupFold_same_key (k : Option Nat) : ∀ (l : List Stop)
    (pre : List Stop), (∀ s ∈ l, s.applicationID = k) →
    l.foldl groupStep ([pre], [(k, 0)]) = ([pre ++ l], [(k, 0)]) := by
  intro l
  induction l with
  | nil => intro pre _; simp
  | cons s rest ih =>
    intro pre hall
    rw [List.foldl_cons]
    have hk : s.applicationID = k := hall s (List.mem_cons_self s rest)
    have hlook : lookupKey s.applicationID [(k, 0)] = some 0 := by
      rw [hk]
      simp [lookupKey]
    have hstep : groupStep ([pre], [(k, 0)]) s = ([pre ++ [s]], [(k, 0)]) := by
      rw [groupStep_some hlook]
      rfl
    rw [hstep, ih (pre ++ [s]) (fun s' hs' => hall s' (List.mem_cons_of_mem s hs'))]
    simp

/-- Stops from a single contributor end up in exactly one group, in their
original order. -/
theorem groupStops_single_key (stops : List Stop) (k : Option Nat)
    (hne : stops ≠ []) (hall : ∀ s ∈ stops, s.applicationID = k) :
    groupStopsByParticipant stops = [stops] := by
  obtain ⟨s, rest, rfl⟩ := List.exists_cons_of_ne_nil hne
  unfold groupStopsByParticipant
  rw [List.foldl_cons]
  have hk : s.applicationID = k := hall s (List.mem_cons_self s rest)
  have hstep : groupStep ([], []) s = ([[s]], [(k, 0)]) := by
    rw [@groupStep_none ([], []) s rfl, hk]
    rfl
  rw [hstep,
    groupFold_same_key k rest [s] (fun s' hs' => hall s' (List.mem_cons_of_mem s hs'))]
  simp

/-! Facts about `Search` and `CalculateDeviation`. -/

/-- CalculateDeviation unfolded, with the base deviation named
`endpointDeviation`. -/
theorem CalculateDeviation_eq (r : Route) (q : SearchInput) :
    CalculateDeviation r q =
      if (allInterleavings (groupStopsByParticipant r.stops)
          maxInterleavings).length = 0 then
        endpointDeviation r q +
          deviationForStops r.startLat r.startLng r.endLat r.endLng r.stops q
      else
        endpointDeviation r q +
          (allInterleavings (groupStopsByParticipant r.stops)
              maxInterleavings).foldl
            (fun minStopDev ordered =>
              if deviationForStops r.startLat r.startLng r.endLat r.endLng
                  ordered q < minStopDev
              then deviationForStops r.startLat r.startLng r.endLat r.endLng
                  ordered q
              else minStopDev)
            maxFloat64 := rfl

/-- Search unfolded to filter, sort and project. -/
theorem Search_eq (routes : List Route) (q : SearchInput) :
    Search routes q =
      (List.insertionSort (fun a b : Route × ℝ => a.2 ≤ b.2)
        (routes.foldl (fun acc r =>
          if CalculateDeviation r q > r.maxDeviation then acc
          else acc ++ [(r, CalculateDeviation r q)]) [])).map Prod.fst := rfl

/-- Every pair accumulated by the filtering loop of Search carries its
route's exact deviation, and that deviation does not exceed the route's
threshold. -/
theorem searchFold_mem (q : SearchInput) : ∀ (routes : List Route)
    (acc : List (Route × ℝ)) (p : Route × ℝ),
    p ∈ routes.foldl (fun acc r =>
      if CalculateDeviation r q > r.maxDeviation then acc
      else acc ++ [(r, CalculateDeviation r q)]) acc →
    p ∈ acc ∨ (p.2 = CalculateDeviation p.1 q ∧
      ¬ CalculateDeviation p.1 q > p.1.maxDeviation) := by
  intro routes
  induction routes with
  | nil => intro acc p hp; exact Or.inl hp
  | cons r rs ih =>
    intro acc p hp
    rw [List.foldl_cons] at hp
    by_cases hc : CalculateDeviation r q > r.maxDeviation
    · rw [if_pos hc] at hp
      exact ih acc p hp
    · rw [if_neg hc] at hp
      rcases ih _ p hp with h | h
      · rcases List.mem_append.mp h with h' | h'
        · exact Or.inl h'
        · have hpr : p = (r, CalculateDeviation r q) := by simpa using h'
          subst hpr
          exact Or.inr ⟨rfl, hc⟩
      · exact Or.inr h

/-! Concrete sample values used by the witness theorems. -/

/-- A creator stop at the origin. -/
def stop0 : Stop := ⟨1, none, 0, 0, 0⟩

/-- A second creator stop. -/
def stop1 : Stop := ⟨2, none, 1, 1, 1⟩

/-- A route from the origin to the origin with no stops and threshold 1. -/
def route0 : Route := ⟨0, 0, 0, 0, 2, 1, 1, []⟩

/-- A route from the origin to the origin with one stop and threshold 1. -/
def route1 : Route := ⟨0, 0, 0, 0, 2, 1, 1, [stop0]⟩

/-- A query matching route0's endpoints with no via-points. -/
def query0 : SearchInput := ⟨0, 0, 0, 0, []⟩

/-- route0 deviates from query0 by exactly zero. -/
theorem calc_route0_query0 : CalculateDeviation route0 query0 = 0 := by
  rw [CalculateDeviation_eq]
  rw [if_pos (show (allInterleavings (groupStopsByParticipant route0.stops)
    maxInterleavings).length = 0 from rfl)]
  simp [endpointDeviation, route0, query0, Haversine_self, deviationForStops_eq]

/-- Search keeps and returns route0 on query0. -/
theorem search_route0_query0 : Search [route0] query0 = [route0] := by
  rw [Search_eq]
  simp only [List.foldl_cons, List.foldl_nil, calc_route0_query0]
  rw [if_neg (by norm_num [route0])]
  simp [List.insertionSort, List.orderedInsert]

/-- C1: for every query, Search discards every candidate whose computed
deviation exceeds that candidate's maximum-deviation threshold — no route
in the returned sequence has `CalculateDeviation` above its
`maxDeviation`. -/
theorem search_discards_above_threshold (routes : List Route) (q : SearchInput)
    (r : Route) (hr : r ∈ Search routes q) :
    CalculateDeviation r q ≤ r.maxDeviation := by
  rw [Search_eq] at hr
  obtain ⟨p, hp, hpr⟩ := List.mem_map.mp hr
  have hpw := (List.perm_insertionSort (fun a b : Route × ℝ => a.2 ≤ b.2) _).subset hp
  rcases searchFold_mem q routes [] p hpw with h | h
  · exact absurd h (List.not_mem_nil p)
  · rw [← hpr]
    exact not_lt.mp h.2

/-- Witness for C1 at a concrete input: route0 is returned by Search and
its score respects its threshold. -/
theorem search_discards_above_threshold_witness :
    route0 ∈ Search [route0] query0 ∧
      CalculateDeviation route0 query0 ≤ route0.maxDeviation := by
  have hmem : route0 ∈ Search [route0] query0 := by
    rw [search_route0_query0]
    exact List.mem_singleton.mpr rfl
  exact ⟨hmem, search_discards_above_threshold [route0] query0 route0 hmem⟩

/-- C5: the sequence returned by Search is sorted in non-decreasing order
of each returned route's computed deviation score. -/
theorem search_sorted_by_score (routes : List Route) (q : SearchInput) :
    List.Sorted (fun a b : Route =>
      CalculateDeviation a q ≤ CalculateDeviation b q) (Search routes q) := by
  haveI hTot : IsTotal (Route × ℝ) (fun a b => a.2 ≤ b.2) :=
    ⟨fun a b => le_total a.2 b.2⟩
  haveI hTrans : IsTrans (Route × ℝ) (fun a b => a.2 ≤ b.2) :=
    ⟨fun a b c h1 h2 => le_trans h1 h2⟩
  rw [Search_eq]
  have hsorted := List.sorted_insertionSort (fun a b : Route × ℝ => a.2 ≤ b.2)
    (routes.foldl (fun acc r =>
      if CalculateDeviation r q > r.maxDeviation then acc
      else acc ++ [(r, CalculateDeviation r q)]) [])
  have hmem : ∀ p ∈ List.insertionSort (fun a b : Route × ℝ => a.2 ≤ b.2)
      (routes.foldl (fun acc r =>
        if CalculateDeviation r q > r.maxDeviation then acc
        else acc ++ [(r, CalculateDeviation r q)]) []),
      p.2 = CalculateDeviation p.1 q := by
    intro p hp
    have hpw := (List.perm_insertionSort (fun a b : Route × ℝ => a.2 ≤ b.2) _).subset hp
    rcases searchFold_mem q routes [] p hpw with h | h
    · exact absurd h (List.not_mem_nil p)
    · exact h.1
  refine List.pairwise_map.mpr ?_
  refine List.Pairwise.imp_of_mem ?_ hsorted
  intro a b ha hb hab
  rw [← hmem a ha, ← hmem b hb]
  exact hab

/-- C8: the Haversine distance is symmetric in its two points. -/
theorem Haversine_symm (lat1 lng1 lat2 lng2 : ℝ) :
    Haversine lat1 lng1 lat2 lng2 = Haversine lat2 lng2 lat1 lng1 := by
  have hs : ∀ x y : ℝ, Real.sin ((x - y) * Real.pi / 180 / 2) =
      -Real.sin ((y - x) * Real.pi / 180 / 2) := by
    intro x y
    rw [show (x - y) * Real.pi / 180 / 2 = -((y - x) * Real.pi / 180 / 2)
      from by ring, Real.sin_neg]
  simp only [Haversine]
  have ha : Real.sin ((lat2 - lat1) * Real.pi / 180 / 2) *
        Real.sin ((lat2 - lat1) * Real.pi / 180 / 2) +
      Real.cos (lat1 * Real.pi / 180) * Real.cos (lat2 * Real.pi / 180) *
        Real.sin ((lng2 - lng1) * Real.pi / 180 / 2) *
        Real.sin ((lng2 - lng1) * Real.pi / 180 / 2) =
      Real.sin ((lat1 - lat2) * Real.pi / 180 / 2) *
        Real.sin ((lat1 - lat2) * Real.pi / 180 / 2) +
      Real.cos (lat2 * Real.pi / 180) * Real.cos (lat1 * Real.pi / 180) *
        Real.sin ((lng1 - lng2) * Real.pi / 180 / 2) *
        Real.sin ((lng1 - lng2) * Real.pi / 180 / 2) := by
    rw [hs lat2 lat1, hs lng2 lng1]
    ring
  rw [ha]

/-- C9: CalculateDeviation is deterministic — equal route values and equal
search inputs always produce equal scores. -/
theorem calculateDeviation_deterministic (r1 r2 : Route) (q1 q2 : SearchInput)
    (hr : r1 = r2) (hq : q1 = q2) :
    CalculateDeviation r1 q1 = CalculateDeviation r2 q2 := by
  subst hr
  subst hq
  rfl

/-- Witness for C9 at a concrete input. -/
theorem calculateDeviation_deterministic_witness :
    CalculateDeviation route1 query0 = CalculateDeviation route1 query0 :=
  calculateDeviation_deterministic route1 route1 query0 query0 rfl rfl

/-- C2: CalculateDeviation is the endpoint deviation plus the minimum
per-ordering stop deviation over the enumerated orderings; when the
enumeration is empty (the route has no stops) the stop component is the
deviation computed for the empty stop list.  The hypothesis reflects the
Go slice-length bound on the query's via-point list (a Go slice has at
most `2^63 - 1` elements). -/
theorem calculateDeviation_decomposition (r : Route) (q : SearchInput)
    (hq : q.stops.length < 2 ^ 63) :
    (allInterleavings (groupStopsByParticipant r.stops) maxInterleavings = [] →
      CalculateDeviation r q =
        endpointDeviation r q +
          deviationForStops r.startLat r.startLng r.endLat r.endLng [] q) ∧
    (allInterleavings (groupStopsByParticipant r.stops) maxInterleavings ≠ [] →
      ∃ d, IsLeast {x : ℝ | ∃ o ∈ allInterleavings
          (groupStopsByParticipant r.stops) maxInterleavings,
          x = deviationForStops r.startLat r.startLng r.endLat r.endLng o q} d ∧
        CalculateDeviation r q = endpointDeviation r q + d) := by
  constructor
  · intro hemp
    have hstops : r.stops = [] := by
      by_contra hne
      exact allInterleavings_ne_nil (groupStops_ne_nil hne)
        (by norm_num [maxInterleavings]) hemp
    rw [CalculateDeviation_eq,
      if_pos (by rw [hemp]; rfl), hstops]
  · intro hne
    rw [CalculateDeviation_eq,
      if_neg (fun h => hne (List.length_eq_zero.mp h))]
    obtain ⟨o₀, ho₀⟩ := List.exists_mem_of_ne_nil _ hne
    refine ⟨_, foldl_min_isLeast
      (fun o => deviationForStops r.startLat r.startLng r.endLat r.endLng o q)
      (allInterleavings (groupStopsByParticipant r.stops) maxInterleavings)
      maxFloat64 ⟨o₀, ho₀, ?_⟩, rfl⟩
    exact le_of_lt (lt_of_le_of_lt
      (deviationForStops_le r.startLat r.startLng r.endLat r.endLng o₀ q)
      (count_mul_bound_lt_maxFloat64 hq))

/-- Witness for C2 at a concrete input with one stop. -/
theorem calculateDeviation_decomposition_witness :
    ∃ d, IsLeast {x : ℝ | ∃ o ∈ allInterleavings
        (groupStopsByParticipant route1.stops) maxInterleavings,
        x = deviationForStops route1.startLat route1.startLng route1.endLat
          route1.endLng o query0} d ∧
      CalculateDeviation route1 query0 = endpointDeviation route1 query0 + d :=
  (calculateDeviation_decomposition route1 query0 (by norm_num [query0])).2
    (by rw [show allInterleavings (groupStopsByParticipant route1.stops)
        maxInterleavings = [[stop0]] from rfl]
        simp)

/-- C3: every ordering returned by allInterleavings is an order-preserving
merge of the input groups — it holds exactly the stops of all groups (as a
multiset) and each group occurs inside it as a subsequence, in its own
order. -/
theorem allInterleavings_order_preserving_merge (groups : List (List Stop))
    (max : Nat) (o : List Stop) (ho : o ∈ allInterleavings groups max) :
    Multiset.ofList o = (groups.map (fun g => Multiset.ofList g)).sum ∧
    ∀ g ∈ groups, g.Sublist o :=
  allInterleavings_sound groups max o ho

/-- Witness for C3 at a concrete one-group input. -/
theorem allInterleavings_order_preserving_merge_witness :
    Multiset.ofList [stop0] = ([[stop0]].map (fun g => Multiset.ofList g)).sum ∧
    ∀ g ∈ [[stop0]], g.Sublist [stop0] :=
  allInterleavings_order_preserving_merge [[stop0]] maxInterleavings [stop0]
    (by rw [allInterleavings_singleton]; exact List.mem_singleton.mpr rfl)

/-- Counterexample for C4 as frozen: with one group and cap 0,
allInterleavings still returns its single ordering, so the returned count
exceeds the cap. -/
theorem allInterleavings_cap_counterexample :
    ¬ ((allInterleavings [[stop0]] 0).length ≤ 0) := by
  rw [allInterleavings_singleton]
  simp

/-- C4 (amended): allInterleavings returns at most `cap` orderings
whenever `cap ≥ 1` (the one-group fast path ignores the cap); it returns
exactly the single input group when there is exactly one group, and zero
orderings when there are zero groups. -/
theorem allInterleavings_count_spec (groups : List (List Stop)) (cap : Nat) :
    (1 ≤ cap → (allInterleavings groups cap).length ≤ cap) ∧
    (groups.length = 1 → allInterleavings groups cap = [groups.getD 0 []]) ∧
    (groups = [] → allInterleavings groups cap = []) := by
  refine ⟨fun hm => allInterleavings_length_le groups hm,
    fun h1 => ?_, fun h0 => ?_⟩
  · unfold allInterleavings
    rw [if_neg (by omega), if_pos h1]
  · subst h0
    rfl

/-- Witness for C4's amended statement at concrete inputs. -/
theorem allInterleavings_count_spec_witness :
    (allInterleavings [[stop0], [stop1]] 500).length ≤ 500 ∧
    allInterleavings [[stop0]] 7 = [[[stop0]].getD 0 []] :=
  ⟨(allInterleavings_count_spec [[stop0], [stop1]] 500).1 (by norm_num),
   (allInterleavings_count_spec [[stop0]] 7).2.1 rfl⟩

/-- C6: buildSegmentsFromStops emits the midpoint of each consecutive pair
of the walk start, stop₁, …, stopₙ, end — a single start/end midpoint when
there are no stops — and always returns `len(stops) + 1` points. -/
theorem buildSegmentsFromStops_spec (startLat startLng endLat endLng : ℝ)
    (stops : List Stop) :
    buildSegmentsFromStops startLat startLng endLat endLng stops =
      List.zipWith (fun p q : ℝ × ℝ => ((p.1 + q.1) / 2, (p.2 + q.2) / 2))
        ((startLat, startLng) :: stops.map (fun s => (s.lat, s.lng)))
        (stops.map (fun s => (s.lat, s.lng)) ++ [(endLat, endLng)]) ∧
    (buildSegmentsFromStops startLat startLng endLat endLng stops).length =
      stops.length + 1 := by
  have hloop : ∀ (l : List Stop) (pLat pLng : ℝ),
      buildSegmentsLoop pLat pLng endLat endLng l =
        List.zipWith (fun p q : ℝ × ℝ => ((p.1 + q.1) / 2, (p.2 + q.2) / 2))
          ((pLat, pLng) :: l.map (fun s => (s.lat, s.lng)))
          (l.map (fun s => (s.lat, s.lng)) ++ [(endLat, endLng)]) := by
    intro l
    induction l with
    | nil => intro pLat pLng; rfl
    | cons s rest ih =>
      intro pLat pLng
      simp only [buildSegmentsLoop, List.map_cons, List.cons_append,
        List.zipWith_cons_cons]
      rw [ih s.lat s.lng]
  have hmain : buildSegmentsFromStops startLat startLng endLat endLng stops =
      List.zipWith (fun p q : ℝ × ℝ => ((p.1 + q.1) / 2, (p.2 + q.2) / 2))
        ((startLat, startLng) :: stops.map (fun s => (s.lat, s.lng)))
        (stops.map (fun s => (s.lat, s.lng)) ++ [(endLat, endLng)]) := by
    unfold buildSegmentsFromStops
    by_cases h : stops.length = 0
    · have hnil : stops = [] := List.length_eq_zero.mp h
      subst hnil
      rfl
    · rw [if_neg h]
      exact hloop stops startLat startLng
  refine ⟨hmain, ?_⟩
  rw [hmain]
  simp [List.length_zipWith]

/-- C7: groupStopsByParticipant conserves the total stop count, returns
zero groups on the empty list, and puts stops sharing one contributor into
a single group in their original order. -/
theorem groupStopsByParticipant_spec (stops : List Stop) :
    totalLen (groupStopsByParticipant stops) = stops.length ∧
    groupStopsByParticipant ([] : List Stop) = [] ∧
    (∀ k : Option Nat, stops ≠ [] → (∀ s ∈ stops, s.applicationID = k) →
      groupStopsByParticipant stops = [stops]) :=
  ⟨groupStops_totalLen stops, rfl,
   fun k hne hall => groupStops_single_key stops k hne hall⟩

/-- Witness for C7 at a concrete two-stop creator-only input. -/
theorem groupStopsByParticipant_spec_witness :
    totalLen (groupStopsByParticipant [stop0, stop1]) = [stop0, stop1].length ∧
    groupStopsByParticipant [stop0, stop1] = [[stop0, stop1]] :=
  ⟨(groupStopsByParticipant_spec [stop0, stop1]).1,
   (groupStopsByParticipant_spec [stop0, stop1]).2.2 none (by simp)
     (by
       intro s hs
       rcases List.mem_cons.mp hs with h | hs'
       · subst h; rfl
       · rcases List.mem_cons.mp hs' with h | hs''
         · subst h; rfl
         · cases hs'')⟩

/-- C10: the `math.MaxFloat64` sentinels never reach a returned score —
segments built from a route are never empty, so minDistanceToSegment
always returns an actual Haversine distance; and for a route with at least
one stop the enumeration is non-empty and the returned score is the
endpoint deviation plus an actual ordering's stop deviation, which is
strictly below the sentinel.  The hypothesis is the Go slice-length bound
on the query's via-point list. -/
theorem sentinel_never_in_returned_score (r : Route) (q : SearchInput)
    (p : SearchStopInput) (hq : q.stops.length < 2 ^ 63) :
    (buildSegmentsFromStops r.startLat r.startLng r.endLat r.endLng r.stops ≠ [] ∧
      minDistanceToSegment p.lat p.lng
          (buildSegmentsFromStops r.startLat r.startLng r.endLat r.endLng r.stops) ∈
        (buildSegmentsFromStops r.startLat r.startLng r.endLat r.endLng
          r.stops).map (fun seg => Haversine p.lat p.lng seg.1 seg.2)) ∧
    (r.stops ≠ [] →
      allInterleavings (groupStopsByParticipant r.stops) maxInterleavings ≠ [] ∧
      ∃ o ∈ allInterleavings (groupStopsByParticipant r.stops) maxInterleavings,
        CalculateDeviation r q =
          endpointDeviation r q +
            deviationForStops r.startLat r.startLng r.endLat r.endLng o q ∧
        deviationForStops r.startLat r.startLng r.endLat r.endLng o q <
          maxFloat64) := by
  constructor
  · exact ⟨buildSegmentsFromStops_ne_nil _ _ _ _ _,
      minDistanceToSegment_attained _ _
        (buildSegmentsFromStops_ne_nil _ _ _ _ _)⟩
  · intro hstops
    have hne : allInterleavings (groupStopsByParticipant r.stops)
        maxInterleavings ≠ [] := allInterleavings_ne_nil
      (groupStops_ne_nil hstops) (by norm_num [maxInterleavings])
    refine ⟨hne, ?_⟩
    obtain ⟨o₀, ho₀⟩ := List.exists_mem_of_ne_nil _ hne
    have hbound : ∀ o : List Stop,
        deviationForStops r.startLat r.startLng r.endLat r.endLng o q <
          maxFloat64 := fun o => lt_of_le_of_lt
      (deviationForStops_le r.startLat r.startLng r.endLat r.endLng o q)
      (count_mul_bound_lt_maxFloat64 hq)
    obtain ⟨⟨o, ho, heq⟩, _⟩ := foldl_min_isLeast
      (fun o => deviationForStops r.startLat r.startLng r.endLat r.endLng o q)
      (allInterleavings (groupStopsByParticipant r.stops) maxInterleavings)
      maxFloat64 ⟨o₀, ho₀, le_of_lt (hbound o₀)⟩
    refine ⟨o, ho, ?_, hbound o⟩
    rw [CalculateDeviation_eq,
      if_neg (fun h => hne (List.length_eq_zero.mp h))]
    exact congrArg (endpointDeviation r q + ·) heq

/-- Witness for C10 at a concrete one-stop input. -/
theorem sentinel_never_in_returned_score_witness :
    allInterleavings (groupStopsByParticipant route1.stops) maxInterleavings ≠ [] ∧
    ∃ o ∈ allInterleavings (groupStopsByParticipant route1.stops) maxInterleavings,
      CalculateDeviation route1 query0 =
        endpointDeviation route1 query0 +
          deviationForStops route1.startLat route1.startLng route1.endLat
            route1.endLng o query0 ∧
      deviationForStops route1.startLat route1.startLng route1.endLat
          route1.endLng o query0 < maxFloat64 :=
  (sentinel_never_in_returned_score route1 query0 ⟨0, 0⟩ (by norm_num [query0])).2
    (by rw [show route1.stops = [stop0] from rfl]; simp)
